import Mathlib

set_option maxHeartbeats 1000000

/-!
Verification of the xml-tree-viewer core: the normalizer that turns an
order-preserving parse result into a uniform tree, the three renderers
(text outline, object view, diagram markup) over that tree, and the
DTD skeleton builder.
-/

/-- The central normalized tree node: tag name, attribute list in
insertion order, direct text content and ordered children. -/
inductive XmlNode where
  | mk (tagName : String) (attributes : List (String × String))
       (textContent : String) (children : List XmlNode)

def XmlNode.tagName : XmlNode → String
  | .mk t _ _ _ => t

def XmlNode.attributes : XmlNode → List (String × String)
  | .mk _ a _ _ => a

def XmlNode.textContent : XmlNode → String
  | .mk _ _ x _ => x

def XmlNode.children : XmlNode → List XmlNode
  | .mk _ _ _ c => c

instance : Inhabited XmlNode := ⟨.mk "" [] "" []⟩

mutual

/-- Document pre-order sequence of the nodes of a tree. -/
def preorder : XmlNode → List XmlNode
  | .mk t a x cs => .mk t a x cs :: preorderList cs

/-- Pre-order sequence of a forest, trees in original order. -/
def preorderList : List XmlNode → List XmlNode
  | [] => []
  | c :: cs => preorder c ++ preorderList cs

end

example : preorder (.mk "a" [] "" [.mk "b" [] "" [], .mk "c" [] "" []])
    = [.mk "a" [] "" [.mk "b" [] "" [], .mk "c" [] "" []],
       .mk "b" [] "" [], .mk "c" [] "" []] := by
  simp [preorder, preorderList]

/-! ## Diagram markup generator, from generateMermaidMarkup -/

/-- Sequential node identifier string, N followed by the counter value. -/
def nodeIdStr (c : Nat) : String := "N" ++ toString c

/-- Escape the four metacharacters, as in escapeLabel. -/
def escapeLabel (text : String) : String :=
  (((text.replace "\"" "#quot;").replace "<" "#lt;").replace ">" "#gt;").replace "&" "#amp;"

/-- Node label: tag, attributes joined by br markers, and for a leaf the
bold text content, as in buildLabel. -/
def buildLabel (node : XmlNode) : String :=
  let label := escapeLabel node.tagName
  let attrs := node.attributes
  let label :=
    if attrs.length > 0 then
      label ++ "<br/>" ++
        String.intercalate "<br/>"
          (attrs.map (fun p => escapeLabel p.1 ++ "=" ++ escapeLabel p.2))
    else label
  if node.textContent ≠ "" ∧ node.children.length = 0 then
    label ++ "<br/><b>" ++ escapeLabel node.textContent ++ "</b>"
  else label

mutual

/-- The node and edge emission pass of generateMermaidMarkup: processNode.
The shared counter is threaded explicitly; the result is the emitted lines
together with the final counter value. -/
def processNode (node : XmlNode) (parentId : Option Nat) (counter : Nat) :
    List String × Nat :=
  match node with
  | .mk t a x cs =>
    let nodeId := counter
    let label := buildLabel (.mk t a x cs)
    let shapeLine :=
      if cs.length = 0 ∧ x ≠ "" then
        "    " ++ nodeIdStr nodeId ++ "(\"" ++ label ++ "\")"
      else
        "    " ++ nodeIdStr nodeId ++ "[\"" ++ label ++ "\"]"
    let edgeLines :=
      match parentId with
      | some p => ["    " ++ nodeIdStr p ++ " --> " ++ nodeIdStr nodeId]
      | none => []
    let (childLines, counter2) := processChildren cs nodeId (counter + 1)
    (shapeLine :: edgeLines ++ childLines, counter2)

/-- The loop over children inside processNode. -/
def processChildren (cs : List XmlNode) (parentId : Nat) (counter : Nat) :
    List String × Nat :=
  match cs with
  | [] => ([], counter)
  | c :: rest =>
    let (l1, c1) := processNode c (some parentId) counter
    let (l2, c2) := processChildren rest parentId c1
    (l1 ++ l2, c2)

end

mutual

/-- The styling classification pass of generateMermaidMarkup: classifyNodes.
Returns the accumulated branch identifier list, leaf identifier list and
the final value of the id counter. -/
def classifyNodes (node : XmlNode) (cur : Nat) (isRoot : Bool) :
    List String × List String × Nat :=
  match node with
  | .mk _ _ _ cs =>
    let currentId := cur
    let own : List String × List String :=
      if isRoot then ([], [])
      else if cs.length > 0 then ([nodeIdStr currentId], [])
      else ([], [nodeIdStr currentId])
    let (b2, l2, c2) := classifyList cs (cur + 1)
    (own.1 ++ b2, own.2 ++ l2, c2)

/-- The loop over children inside classifyNodes. -/
def classifyList (cs : List XmlNode) (cur : Nat) :
    List String × List String × Nat :=
  match cs with
  | [] => ([], [], cur)
  | c :: rest =>
    let (b1, l1, c1) := classifyNodes c cur false
    let (b2, l2, c2) := classifyList rest c1
    (b1 ++ b2, l1 ++ l2, c2)

end

/-- The fixed styling lines pushed after the node and edge statements. -/
def classDefLines : List String :=
  ["",
   "    classDef root fill:#4a90d9,stroke:#2c5f8a,color:#fff,font-weight:bold",
   "    classDef branch fill:#5ba85b,stroke:#3d7a3d,color:#fff",
   "    classDef leaf fill:#f5a623,stroke:#c4841d,color:#fff",
   "    class N0 root"]

/-- The full list of lines of the mermaid markup, in order. -/
def markupLines (root : XmlNode) : List String :=
  let nodeLines := (processNode root none 0).1
  let cls := classifyNodes root 0 true
  let branchIds := cls.1
  let leafIds := cls.2.1
  ("graph TD" :: nodeLines) ++ classDefLines ++
    (if branchIds.length > 0 then
       ["    class " ++ String.intercalate "," branchIds ++ " branch"]
     else []) ++
    (if leafIds.length > 0 then
       ["    class " ++ String.intercalate "," leafIds ++ " leaf"]
     else [])

/-- generateMermaidMarkup: all emitted lines joined with newlines. -/
def generateMermaidMarkup (root : XmlNode) : String :=
  String.intercalate "\n" (markupLines root)

mutual

/-- The identifier assignment performed by processNode: the sequence of
pairs of counter value and node, in the order the counter is consumed. -/
def processVisits (node : XmlNode) (counter : Nat) :
    List (Nat × XmlNode) × Nat :=
  match node with
  | .mk t a x cs =>
    let (vs, c2) := processVisitsList cs (counter + 1)
    ((counter, .mk t a x cs) :: vs, c2)

/-- Identifier assignment of processNode over a child list. -/
def processVisitsList (cs : List XmlNode) (counter : Nat) :
    List (Nat × XmlNode) × Nat :=
  match cs with
  | [] => ([], counter)
  | c :: rest =>
    let (v1, c1) := processVisits c counter
    let (v2, c2) := processVisitsList rest c1
    (v1 ++ v2, c2)

end

mutual

/-- The identifier assignment performed by classifyNodes: the sequence of
pairs of id.current value and node, in the order the counter is consumed. -/
def classifyVisits (node : XmlNode) (cur : Nat) :
    List (Nat × XmlNode) × Nat :=
  match node with
  | .mk t a x cs =>
    let (vs, c2) := classifyVisitsList cs (cur + 1)
    ((cur, .mk t a x cs) :: vs, c2)

/-- Identifier assignment of classifyNodes over a child list. -/
def classifyVisitsList (cs : List XmlNode) (cur : Nat) :
    List (Nat × XmlNode) × Nat :=
  match cs with
  | [] => ([], cur)
  | c :: rest =>
    let (v1, c1) := classifyVisits c cur
    let (v2, c2) := classifyVisitsList rest c1
    (v1 ++ v2, c2)

end

mutual

theorem processVisits_eq (n : XmlNode) (c : Nat) :
    processVisits n c = ((preorder n).enumFrom c, c + (preorder n).length) := by
  match n with
  | .mk t a x cs =>
    simp [processVisits, preorder, processVisitsList_eq cs (c + 1), List.enumFrom]
    omega

theorem processVisitsList_eq (l : List XmlNode) (c : Nat) :
    processVisitsList l c
      = ((preorderList l).enumFrom c, c + (preorderList l).length) := by
  match l with
  | [] => simp [processVisitsList, preorderList, List.enumFrom]
  | x :: xs =>
    simp [processVisitsList, preorderList, processVisits_eq x c,
      processVisitsList_eq xs (c + (preorder x).length), List.enumFrom_append]
    omega

end

mutual

theorem classifyVisits_eq (n : XmlNode) (c : Nat) :
    classifyVisits n c = ((preorder n).enumFrom c, c + (preorder n).length) := by
  match n with
  | .mk t a x cs =>
    simp [classifyVisits, preorder, classifyVisitsList_eq cs (c + 1), List.enumFrom]
    omega

theorem classifyVisitsList_eq (l : List XmlNode) (c : Nat) :
    classifyVisitsList l c
      = ((preorderList l).enumFrom c, c + (preorderList l).length) := by
  match l with
  | [] => simp [classifyVisitsList, preorderList, List.enumFrom]
  | x :: xs =>
    simp [classifyVisitsList, preorderList, classifyVisits_eq x c,
      classifyVisitsList_eq xs (c + (preorder x).length), List.enumFrom_append]
    omega

end

mutual

theorem processNode_counter (n : XmlNode) (p : Option Nat) (c : Nat) :
    (processNode n p c).2 = c + (preorder n).length := by
  match n with
  | .mk t a x cs =>
    simp [processNode, preorder, processChildren_counter cs c (c + 1)]
    omega

theorem processChildren_counter (l : List XmlNode) (p : Nat) (c : Nat) :
    (processChildren l p c).2 = c + (preorderList l).length := by
  match l with
  | [] => simp [processChildren, preorderList]
  | x :: xs =>
    simp [processChildren, preorderList, processNode_counter x (some p) c,
      processChildren_counter xs p (c + (preorder x).length)]
    omega

end

mutual

theorem classifyNodes_counter (n : XmlNode) (c : Nat) (r : Bool) :
    (classifyNodes n c r).2.2 = c + (preorder n).length := by
  match n with
  | .mk t a x cs =>
    simp [classifyNodes, preorder, classifyList_counter cs (c + 1)]
    omega

theorem classifyList_counter (l : List XmlNode) (c : Nat) :
    (classifyList l c).2.2 = c + (preorderList l).length := by
  match l with
  | [] => simp [classifyList, preorderList]
  | x :: xs =>
    simp [classifyList, preorderList, classifyNodes_counter x c false,
      classifyList_counter xs (c + (preorder x).length)]
    omega

end

/-- The branch identifiers an identifier assignment induces: ids of the
nodes that have children. -/
def branchIdsOf (vs : List (Nat × XmlNode)) : List String :=
  (vs.filter (fun p => 0 < p.2.children.length)).map (fun p => nodeIdStr p.1)

/-- The leaf identifiers an identifier assignment induces: ids of the
nodes without children. -/
def leafIdsOf (vs : List (Nat × XmlNode)) : List String :=
  (vs.filter (fun p => p.2.children.length = 0)).map (fun p => nodeIdStr p.1)

theorem branchIdsOf_append (v1 v2 : List (Nat × XmlNode)) :
    branchIdsOf (v1 ++ v2) = branchIdsOf v1 ++ branchIdsOf v2 := by
  simp [branchIdsOf]

theorem leafIdsOf_append (v1 v2 : List (Nat × XmlNode)) :
    leafIdsOf (v1 ++ v2) = leafIdsOf v1 ++ leafIdsOf v2 := by
  simp [leafIdsOf]

mutual

theorem classifyNodes_false_eq (n : XmlNode) (c : Nat) :
    classifyNodes n c false
      = (branchIdsOf ((preorder n).enumFrom c),
         leafIdsOf ((preorder n).enumFrom c),
         c + (preorder n).length) := by
  match n with
  | .mk t a x [] =>
    simp [classifyNodes, preorder, preorderList,
      classifyList_eq ([] : List XmlNode) (c + 1), List.enumFrom,
      branchIdsOf, leafIdsOf, XmlNode.children, List.filter_cons]
  | .mk t a x (c0 :: cs0) =>
    simp [classifyNodes, preorder, classifyList_eq (c0 :: cs0) (c + 1),
      List.enumFrom, branchIdsOf, leafIdsOf, XmlNode.children, List.filter_cons]
    omega

theorem classifyList_eq (l : List XmlNode) (c : Nat) :
    classifyList l c
      = (branchIdsOf ((preorderList l).enumFrom c),
         leafIdsOf ((preorderList l).enumFrom c),
         c + (preorderList l).length) := by
  match l with
  | [] => simp [classifyList, preorderList, List.enumFrom, branchIdsOf, leafIdsOf]
  | x :: xs =>
    simp [classifyList, preorderList, classifyNodes_false_eq x c,
      classifyList_eq xs (c + (preorder x).length), List.enumFrom_append,
      branchIdsOf_append, leafIdsOf_append]
    omega

end

/-! ## Normalizer, from parseXml and convertOrderedToTree

The ordered parse result is modelled as a list of items; an item is an
object given by its entries in insertion order, and a value is a string,
an array of items, or an attribute object of string pairs. -/

mutual

inductive JVal where
  | jstr (s : String) : JVal
  | jarr (items : List JItem) : JVal
  | jobj (fields : List (String × String)) : JVal

/-- One item of the order-preserving parse result. -/
inductive JItem where
  | mk (entries : List (String × JVal)) : JItem

end

def JItem.entries : JItem → List (String × JVal)
  | .mk es => es

/-- Models the JS String coercion on the value shapes we model: strings
stay themselves, objects stringify to the object placeholder, arrays to
their comma joined elements, each an object placeholder. -/
def jsString : JVal → String
  | .jstr s => s
  | .jarr items => String.intercalate "," (items.map (fun _ => "[object Object]"))
  | .jobj _ => "[object Object]"

/-- Models JS truthiness of a value: only the empty string is falsy among
the shapes we model. -/
def jsTruthy : JVal → Bool
  | .jstr s => s ≠ ""
  | .jarr _ => true
  | .jobj _ => true

/-- Models Object.entries of an attribute carrier value followed by the
String coercion of each entry value. -/
def jsAttrEntries : JVal → List (String × String)
  | .jobj fields => fields
  | .jstr s => (s.toList.enum.map (fun p => (toString p.1, String.mk [p.2])))
  | .jarr items => (items.enum.map (fun p => (toString p.1, "[object Object]")))

/-- Remove the first occurrence of a pattern from a character list. -/
def removeFirstOcc (cs pat : List Char) : List Char :=
  match cs with
  | [] => []
  | c :: rest =>
    if (c :: rest).take pat.length = pat then (c :: rest).drop pat.length
    else c :: removeFirstOcc rest pat

/-- Models the JS replace of the first occurrence of a pattern by the
empty string, used to strip the raw attribute name marker. -/
def stripFirst (s pat : String) : String :=
  String.mk (removeFirstOcc s.toList pat.toList)

theorem list_sizeOf_pos {α : Type} [SizeOf α] (l : List α) : 1 ≤ sizeOf l := by
  cases l <;> simp_arith

mutual

/-- convertOrderedToTree: normalize a list of parse items into a forest. -/
def convertOrderedToTree (orderedArray : List JItem) : List XmlNode :=
  match orderedArray with
  | [] => []
  | item :: rest => convertItem item ++ convertOrderedToTree rest
termination_by 2 * sizeOf orderedArray

/-- The per item part of the loop of convertOrderedToTree. -/
def convertItem (item : JItem) : List XmlNode :=
  match item with
  | .mk entries => convertEntries item entries
termination_by 2 * sizeOf item + 1

/-- The loop over the keys of one item inside convertOrderedToTree. -/
def convertEntries (item : JItem) (rem : List (String × JVal)) : List XmlNode :=
  match rem with
  | [] => []
  | (key, v) :: rest =>
    if key = "?xml" then convertEntries item rest
    else if key = ":@" then convertEntries item rest
    else if key = "#text" then convertEntries item rest
    else
      let attrs :=
        match item.entries.lookup ":@" with
        | some av =>
          if jsTruthy av then
            (jsAttrEntries av).map (fun p => (stripFirst p.1 "@_", p.2))
          else []
        | none => []
      let tc :=
        match v with
        | .jarr cs => childFold cs "" []
        | _ => ("", [])
      XmlNode.mk key attrs tc.1 tc.2 :: convertEntries item rest
termination_by 2 * sizeOf rem

/-- The loop over the child array of an element key: a text child
overwrites the text content, any other child is recursively normalized
and appended. -/
def childFold (cs : List JItem) (text : String) (acc : List XmlNode) :
    String × List XmlNode :=
  match cs with
  | [] => (text, acc)
  | child :: rest =>
    match child.entries.lookup "#text" with
    | some tv => childFold rest (jsString tv) acc
    | none => childFold rest text (acc ++ convertOrderedToTree [child])
termination_by 2 * sizeOf cs + 1
decreasing_by
all_goals simp_wf
all_goals (have h1 := list_sizeOf_pos rest; simp_arith; omega)

end

/-- parseXml after the external parse call: a single top-level node is the
root, otherwise the top-level nodes are wrapped in a synthetic document
node. -/
def parseXml (parsed : List JItem) : XmlNode :=
  let rootNodes := convertOrderedToTree parsed
  if rootNodes.length = 1 then rootNodes.head!
  else XmlNode.mk "(document)" [] "" rootNodes

/-! ## Text outline renderer, from generateTextTree -/

/-- The display part of a line: tag with attributes, and for a leaf the
arrow followed by the quoted text. -/
def displayOf : XmlNode → String
  | .mk t a x cs =>
    let attrs := String.intercalate " " (a.map (fun p => p.1 ++ "=\"" ++ p.2 ++ "\""))
    let d := if attrs ≠ "" then "<" ++ t ++ " " ++ attrs ++ ">" else "<" ++ t ++ ">"
    if x ≠ "" ∧ cs.length = 0 then d ++ " → \"" ++ x ++ "\"" else d

mutual

/-- generateTextTree: one connector-prefixed line per node, concatenated
during a pre-order traversal. -/
def generateTextTree (node : XmlNode) (indent : String) (isLast : Bool)
    (isRoot : Bool) : String :=
  match node with
  | .mk t a x cs =>
    let connector := if isRoot then "" else if isLast then "└── " else "├── "
    let childIndent := if isRoot then "" else if isLast then "    " else "│   "
    indent ++ connector ++ displayOf (.mk t a x cs) ++ "\n" ++
      genChildren cs (indent ++ childIndent)

/-- The indexed loop over children inside generateTextTree; the last child
is rendered with isLast set. -/
def genChildren (cs : List XmlNode) (indent : String) : String :=
  match cs with
  | [] => ""
  | [c] => generateTextTree c indent true false
  | c :: rest => generateTextTree c indent false false ++ genChildren rest indent

end

mutual

/-- The line contexts of the outline traversal: for every node, in
pre-order, the connector-bearing line head paired with the node. -/
def annotated (node : XmlNode) (indent : String) (isLast : Bool)
    (isRoot : Bool) : List (String × XmlNode) :=
  match node with
  | .mk t a x cs =>
    let connector := if isRoot then "" else if isLast then "└── " else "├── "
    let childIndent := if isRoot then "" else if isLast then "    " else "│   "
    (indent ++ connector, .mk t a x cs) :: annotatedList cs (indent ++ childIndent)

/-- Line contexts of a child list. -/
def annotatedList (cs : List XmlNode) (indent : String) :
    List (String × XmlNode) :=
  match cs with
  | [] => []
  | [c] => annotated c indent true false
  | c :: rest => annotated c indent false false ++ annotatedList rest indent

end

theorem strFoldl_eq (l : List String) (a : String) :
    List.foldl (fun r s => r ++ s) a l = a ++ List.foldl (fun r s => r ++ s) "" l := by
  induction l generalizing a with
  | nil => simp [String.append_empty]
  | cons x xs ih =>
    simp only [List.foldl_cons]
    rw [ih (a ++ x), ih ("" ++ x), String.empty_append, String.append_assoc]

theorem string_join_cons (s : String) (l : List String) :
    String.join (s :: l) = s ++ String.join l := by
  simp only [String.join, List.foldl_cons, String.empty_append]
  exact strFoldl_eq l s

theorem string_join_append (l1 l2 : List String) :
    String.join (l1 ++ l2) = String.join l1 ++ String.join l2 := by
  induction l1 with
  | nil => simp [String.join, String.empty_append]
  | cons x xs ih =>
    simp only [List.cons_append, string_join_cons, ih, String.append_assoc]

mutual

theorem generateTextTree_eq (n : XmlNode) (ind : String) (l r : Bool) :
    generateTextTree n ind l r
      = String.join ((annotated n ind l r).map
          (fun p => p.1 ++ displayOf p.2 ++ "\n")) := by
  match n with
  | .mk t a x cs =>
    simp only [generateTextTree, annotated, List.map_cons, string_join_cons,
      genChildren_eq cs (ind ++ (if r then "" else if l then "    " else "│   "))]

theorem genChildren_eq (cs : List XmlNode) (ind : String) :
    genChildren cs ind
      = String.join ((annotatedList cs ind).map
          (fun p => p.1 ++ displayOf p.2 ++ "\n")) := by
  match cs with
  | [] => simp [genChildren, annotatedList, String.join]
  | [c] => simp [genChildren, annotatedList, generateTextTree_eq c ind true false]
  | c :: c2 :: rest =>
    simp [genChildren, annotatedList, generateTextTree_eq c ind false false,
      genChildren_eq (c2 :: rest) ind, string_join_append]

end

mutual

theorem annotated_snd (n : XmlNode) (ind : String) (l r : Bool) :
    (annotated n ind l r).map Prod.snd = preorder n := by
  match n with
  | .mk t a x cs =>
    simp [annotated, preorder,
      annotatedList_snd cs (ind ++ (if r then "" else if l then "    " else "│   "))]

theorem annotatedList_snd (cs : List XmlNode) (ind : String) :
    (annotatedList cs ind).map Prod.snd = preorderList cs := by
  match cs with
  | [] => simp [annotatedList, preorderList]
  | [c] => simp [annotatedList, preorderList, annotated_snd c ind true false]
  | c :: c2 :: rest =>
    simp [annotatedList, preorderList, annotated_snd c ind false false,
      annotatedList_snd (c2 :: rest) ind]

end

/-! ## Object view transformer, from xmlNodeToObject -/

/-- JSON-like values: scalars, arrays and objects given by their fields in
insertion order. -/
inductive JsonValue where
  | str (s : String) : JsonValue
  | arr (items : List JsonValue) : JsonValue
  | obj (fields : List (String × JsonValue)) : JsonValue

/-- One step of the child grouping loop: append the child to the group of
its tag name, creating the group at the end on first sight. -/
def groupInsert (groups : List (String × List XmlNode)) (c : XmlNode) :
    List (String × List XmlNode) :=
  if (groups.lookup c.tagName).isSome then
    groups.map (fun g => if g.1 = c.tagName then (g.1, g.2 ++ [c]) else g)
  else groups ++ [(c.tagName, [c])]

/-- Group children by tag name, as the loop of xmlNodeToObject does. -/
def childGroups (cs : List XmlNode) : List (String × List XmlNode) :=
  cs.foldl groupInsert []

theorem mem_of_mem_groupInsert {acc : List (String × List XmlNode)}
    {c : XmlNode} {p : String × List XmlNode} {d : XmlNode}
    (hp : p ∈ groupInsert acc c) (hd : d ∈ p.2) :
    (∃ q ∈ acc, d ∈ q.2) ∨ d = c := by
  unfold groupInsert at hp
  split at hp
  · simp only [List.mem_map] at hp
    obtain ⟨q, hq, hqe⟩ := hp
    by_cases he : q.1 = c.tagName
    · simp only [he, if_true] at hqe
      subst hqe
      simp only [List.mem_append, List.mem_singleton] at hd
      rcases hd with hd | hd
      · exact .inl ⟨q, hq, hd⟩
      · exact .inr hd
    · simp only [he, if_false] at hqe
      subst hqe
      exact .inl ⟨q, hq, hd⟩
  · simp only [List.mem_append, List.mem_singleton] at hp
    rcases hp with hp | hp
    · exact .inl ⟨p, hp, hd⟩
    · subst hp
      simp only [List.mem_singleton] at hd
      exact .inr hd

theorem mem_of_mem_foldl_groupInsert (cs : List XmlNode)
    (acc : List (String × List XmlNode)) (p : String × List XmlNode)
    (d : XmlNode) (hp : p ∈ cs.foldl groupInsert acc) (hd : d ∈ p.2) :
    (∃ q ∈ acc, d ∈ q.2) ∨ d ∈ cs := by
  induction cs generalizing acc with
  | nil => exact .inl ⟨p, hp, hd⟩
  | cons c rest ih =>
    simp only [List.foldl_cons] at hp
    rcases ih (groupInsert acc c) hp with h | h
    · obtain ⟨q, hq, hdq⟩ := h
      rcases mem_of_mem_groupInsert hq hdq with h2 | h2
      · exact .inl h2
      · exact .inr (by simp [h2])
    · exact .inr (by simp [h])

theorem mem_of_mem_childGroups {cs : List XmlNode}
    {p : String × List XmlNode} {d : XmlNode}
    (hp : p ∈ childGroups cs) (hd : d ∈ p.2) : d ∈ cs := by
  rcases mem_of_mem_foldl_groupInsert cs [] p d hp hd with h | h
  · simp at h
  · exact h

/-- Assignment to a property of a JS object: overwrite in place when the
key is present, append otherwise. -/
def objInsert (fields : List (String × JsonValue)) (k : String)
    (v : JsonValue) : List (String × JsonValue) :=
  if (fields.lookup k).isSome then
    fields.map (fun f => if f.1 = k then (k, v) else f)
  else fields ++ [(k, v)]

/-- xmlNodeToObject: a leaf reduces to its text scalar; otherwise children
are grouped by tag name, a singleton group maps to the recursive transform
of its node, a larger group to the array of the recursive transforms, then
the attributes are added with the underscore marker, then the text content
when the node also has children. -/
def xmlNodeToObject (n : XmlNode) : JsonValue :=
  match n with
  | .mk t a x cs =>
    if cs.length = 0 ∧ x ≠ "" then .str x
    else
      let withGroups :=
        (childGroups cs).attach.foldl
          (fun obj g =>
            objInsert obj g.1.1
              (match h : g.1.2 with
               | [c] => xmlNodeToObject c
               | grp => JsonValue.arr (grp.attach.map (fun c => xmlNodeToObject c.1))))
          []
      let withAttrs :=
        a.foldl (fun obj p => objInsert obj ("_" ++ p.1) (.str p.2)) withGroups
      let fields :=
        if x ≠ "" ∧ cs.length > 0 then objInsert withAttrs "#text" (.str x)
        else withAttrs
      JsonValue.obj fields
termination_by sizeOf n
decreasing_by
· have hc : c ∈ (g.1).2 := by rw [h]; exact List.mem_singleton_self c
  have hcs := mem_of_mem_childGroups g.2 hc
  have hlt := List.sizeOf_lt_of_mem hcs
  simp_wf
  omega
· have hc : c.1 ∈ (g.1).2 := by rw [h]; exact c.2
  have hcs := mem_of_mem_childGroups g.2 hc
  have hlt := List.sizeOf_lt_of_mem hcs
  simp_wf
  omega

/-- Plain form of the group value computed inside xmlNodeToObject. -/
def groupValue (grp : List XmlNode) : JsonValue :=
  match grp with
  | [c] => xmlNodeToObject c
  | grp => JsonValue.arr (grp.map xmlNodeToObject)

theorem foldl_ext {α β : Type} {f f' : β → α → β} (h : ∀ acc x, f acc x = f' acc x) :
    ∀ (l : List α) (b : β), l.foldl f b = l.foldl f' b := by
  intro l
  induction l with
  | nil => intro b; rfl
  | cons x xs ih => intro b; simp only [List.foldl_cons, h, ih]

theorem foldl_attach_of_ext {α β : Type} (l : List α)
    (F : β → {x // x ∈ l} → β) (G : β → α → β)
    (h : ∀ acc g, F acc g = G acc g.1) (init : β) :
    l.attach.foldl F init = l.foldl G init := by
  have h1 : l.attach.foldl F init
      = l.attach.foldl (fun acc g => G acc g.1) init :=
    foldl_ext h l.attach init
  rw [h1, List.foldl_attach]

/-- The unfolding equation of xmlNodeToObject on a constructor, with the
group loop expressed as a plain fold. -/
theorem xmlNodeToObject_mk (t : String) (a : List (String × String))
    (x : String) (cs : List XmlNode) :
    xmlNodeToObject (.mk t a x cs)
      = if cs.length = 0 ∧ x ≠ "" then .str x
        else
          JsonValue.obj
            (if x ≠ "" ∧ cs.length > 0 then
               objInsert
                 (a.foldl (fun obj p => objInsert obj ("_" ++ p.1) (.str p.2))
                   ((childGroups cs).foldl
                     (fun obj g => objInsert obj g.1 (groupValue g.2)) []))
                 "#text" (.str x)
             else
               a.foldl (fun obj p => objInsert obj ("_" ++ p.1) (.str p.2))
                 ((childGroups cs).foldl
                   (fun obj g => objInsert obj g.1 (groupValue g.2)) [])) := by
  rw [xmlNodeToObject]
  have hfold :
      (childGroups cs).attach.foldl
          (fun obj g =>
            objInsert obj (g.1).1
              (match h : (g.1).2 with
               | [c] => xmlNodeToObject c
               | grp => JsonValue.arr (grp.attach.map (fun c => xmlNodeToObject c.1))))
          []
        = (childGroups cs).foldl
            (fun obj g => objInsert obj g.1 (groupValue g.2)) [] := by
    apply foldl_attach_of_ext
    intro acc g
    congr 1
    rcases g with ⟨⟨k, grp⟩, hg⟩
    rcases grp with _ | ⟨c, _ | ⟨c2, rest⟩⟩
    · simp [groupValue]
    · rfl
    · simp only [groupValue]
      congr 1
      exact List.attach_map_val _ _
  rw [hfold]

theorem lookup_cons_eq {β : Type} (k a : String) (b : β) (l : List (String × β)) :
    List.lookup k ((a, b) :: l) = if k = a then some b else List.lookup k l := by
  by_cases h : k = a
  · simp [List.lookup, h]
  · have hb : (k == a) = false := beq_eq_false_iff_ne.mpr h
    simp [List.lookup, hb, h]

/-- The distinct members of a string list in first-seen order. -/
def firstSeen (ts : List String) : List String :=
  ts.foldl (fun acc t => if t ∈ acc then acc else acc ++ [t]) []

theorem mem_foldl_firstSeen (ts : List String) (acc : List String) (s : String) :
    s ∈ ts.foldl (fun acc t => if t ∈ acc then acc else acc ++ [t]) acc
      ↔ s ∈ acc ∨ s ∈ ts := by
  induction ts generalizing acc with
  | nil => simp
  | cons t rest ih =>
    simp only [List.foldl_cons]
    rw [ih]
    by_cases h : t ∈ acc
    · simp only [h, if_true, List.mem_cons]
      constructor
      · rintro (h1 | h1)
        · exact .inl h1
        · exact .inr (.inr h1)
      · rintro (h1 | h1 | h1)
        · exact .inl h1
        · subst h1; exact .inl h
        · exact .inr h1
    · simp only [h, if_false, List.mem_append, List.mem_singleton, List.mem_cons]
      tauto

theorem mem_firstSeen (ts : List String) (s : String) :
    s ∈ firstSeen ts ↔ s ∈ ts := by
  simpa [firstSeen] using mem_foldl_firstSeen ts [] s

theorem firstSeen_nodup_aux (ts : List String) (acc : List String)
    (h : acc.Nodup) :
    (ts.foldl (fun acc t => if t ∈ acc then acc else acc ++ [t]) acc).Nodup := by
  induction ts generalizing acc with
  | nil => exact h
  | cons t rest ih =>
    simp only [List.foldl_cons]
    by_cases hm : t ∈ acc
    · simpa [hm] using ih acc h
    · have : (acc ++ [t]).Nodup := by simp [List.nodup_append, h, hm]
      simpa [hm] using ih (acc ++ [t]) this

theorem firstSeen_nodup (ts : List String) : (firstSeen ts).Nodup :=
  firstSeen_nodup_aux ts [] List.nodup_nil

theorem firstSeen_snoc (ts : List String) (t : String) :
    firstSeen (ts ++ [t])
      = if t ∈ firstSeen ts then firstSeen ts else firstSeen ts ++ [t] := by
  simp [firstSeen, List.foldl_append]

/-- Grouping of a child list described directly: the distinct tag names in
first-seen order, each with the children of that tag in document order. -/
def groupsOf (cs : List XmlNode) : List (String × List XmlNode) :=
  (firstSeen (cs.map XmlNode.tagName)).map
    (fun t => (t, cs.filter (fun c => c.tagName = t)))

theorem lookup_map_pair {β : Type} (ts : List String) (h : String → β)
    (s : String) :
    (ts.map (fun t => (t, h t))).lookup s
      = if s ∈ ts then some (h s) else none := by
  induction ts with
  | nil => simp [List.lookup]
  | cons t rest ih =>
    simp only [List.map_cons, lookup_cons_eq, ih, List.mem_cons]
    by_cases hst : s = t
    · subst hst; simp
    · simp [hst]

theorem groupInsert_groupsOf (pre : List XmlNode) (c : XmlNode) :
    groupInsert (groupsOf pre) c = groupsOf (pre ++ [c]) := by
  unfold groupInsert
  rw [show groupsOf pre
      = (firstSeen (pre.map XmlNode.tagName)).map
          (fun t => (t, pre.filter (fun c => c.tagName = t))) from rfl]
  rw [lookup_map_pair]
  have htag : (pre ++ [c]).map XmlNode.tagName
      = pre.map XmlNode.tagName ++ [c.tagName] := by simp
  by_cases hmem : c.tagName ∈ firstSeen (pre.map XmlNode.tagName)
  · rw [if_pos hmem]
    rw [if_pos (by simp)]
    unfold groupsOf
    rw [htag, firstSeen_snoc]
    rw [if_pos hmem]
    rw [List.map_map]
    apply List.map_eq_map_iff.mpr
    intro t ht
    by_cases hta : t = c.tagName
    · subst hta
      simp [Function.comp, List.filter_append]
    · have hta2 : ¬(c.tagName = t) := fun h => hta h.symm
      simp [Function.comp, hta, List.filter_append, hta2]
  · rw [if_neg hmem]
    rw [if_neg (by simp)]
    unfold groupsOf
    rw [htag, firstSeen_snoc]
    rw [if_neg hmem]
    have hnm : c.tagName ∉ pre.map XmlNode.tagName := by
      rw [← mem_firstSeen]; exact hmem
    rw [List.map_append]
    congr 1
    · apply List.map_eq_map_iff.mpr
      intro t ht
      have hta : ¬(c.tagName = t) := by
        intro h; exact hmem (h ▸ ht)
      simp [List.filter_append, hta]
    · have hfil : pre.filter (fun d => d.tagName = c.tagName) = [] := by
        apply List.filter_eq_nil_iff.mpr
        intro d hd
        simp only [decide_eq_true_eq]
        intro h
        exact hnm (h ▸ List.mem_map_of_mem XmlNode.tagName hd)
      simp [List.filter_append, hfil]

theorem foldl_groupInsert_groupsOf (cs pre : List XmlNode) :
    cs.foldl groupInsert (groupsOf pre) = groupsOf (pre ++ cs) := by
  induction cs generalizing pre with
  | nil => simp
  | cons c rest ih =>
    simp only [List.foldl_cons, groupInsert_groupsOf, ih (pre ++ [c])]
    simp

/-- The grouping loop of xmlNodeToObject computes the first-seen grouping. -/
theorem childGroups_eq (cs : List XmlNode) : childGroups cs = groupsOf cs := by
  have h := foldl_groupInsert_groupsOf cs []
  have h0 : groupsOf [] = [] := by simp [groupsOf, firstSeen]
  rw [h0] at h
  simpa [childGroups] using h

theorem lookup_append_none {β : Type} (l1 l2 : List (String × β)) (k : String)
    (h : l1.lookup k = none) : (l1 ++ l2).lookup k = l2.lookup k := by
  induction l1 with
  | nil => simp
  | cons hd tl ih =>
    rcases hd with ⟨a, b⟩
    rw [lookup_cons_eq] at h
    by_cases hk : k = a
    · simp [hk] at h
    · rw [if_neg hk] at h
      simpa [lookup_cons_eq, hk] using ih h

theorem lookup_eq_none_of {β : Type} (l : List (String × β)) (k : String)
    (h : ∀ p ∈ l, p.1 ≠ k) : l.lookup k = none := by
  induction l with
  | nil => simp
  | cons hd tl ih =>
    rcases hd with ⟨a, b⟩
    rw [lookup_cons_eq]
    have ha : a ≠ k := h (a, b) (List.mem_cons_self _ _)
    rw [if_neg (fun hk => ha hk.symm)]
    exact ih (fun p hp => h p (List.mem_cons_of_mem _ hp))

/-- Folding property assignments whose keys are fresh and pairwise
distinct appends the corresponding fields in order. -/
theorem foldl_objInsert_fresh {α : Type} (key : α → String)
    (val : α → JsonValue) (l : List α) (base : List (String × JsonValue))
    (hfresh : ∀ g ∈ l, base.lookup (key g) = none)
    (hnd : (l.map key).Nodup) :
    l.foldl (fun obj g => objInsert obj (key g) (val g)) base
      = base ++ l.map (fun g => (key g, val g)) := by
  induction l generalizing base with
  | nil => simp
  | cons g rest ih =>
    simp only [List.foldl_cons]
    have h1 : objInsert base (key g) (val g) = base ++ [(key g, val g)] := by
      unfold objInsert
      rw [hfresh g (List.mem_cons_self _ _)]
      simp
    rw [h1]
    simp only [List.map_cons, List.nodup_cons] at hnd
    rw [ih (base ++ [(key g, val g)]) ?fresh hnd.2]
    · simp
    case fresh =>
      intro g' hg'
      rw [lookup_append_none _ _ _ (hfresh g' (List.mem_cons_of_mem _ hg'))]
      apply lookup_eq_none_of
      intro p hp
      simp only [List.mem_singleton] at hp
      subst hp
      intro hk
      simp only at hk
      exact hnd.1 (hk ▸ List.mem_map_of_mem key hg')

/-! ## DTD skeleton builder, from dtdToXml.ts -/

/-- Content model kinds exposed by the DTD grammar library. -/
inductive ContentModelType where
  | EMPTY
  | PCDATA
  | ANY
  | MIXED
  | CHILDREN
deriving DecidableEq

/-- A content model: its kind and the referenced child element names. -/
structure ContentModel where
  type : ContentModelType
  children : List String
deriving DecidableEq

/-- An attribute declaration: the default declaration kind and the default
value string. -/
structure AttDecl where
  defaultDecl : String
  defaultValue : String
deriving DecidableEq

/-- The DTD grammar as consumed by the builder: declared element names in
declaration order, content model lookup and attribute list lookup. -/
structure DTDGrammar where
  elementDecls : List String
  contentModels : List (String × ContentModel)
  attLists : List (String × List (String × AttDecl))
deriving DecidableEq

def DTDGrammar.getContentModel (g : DTDGrammar) (name : String) :
    Option ContentModel :=
  g.contentModels.lookup name

/-- Escape the five standard entity characters, as in escapeAttribute. -/
def escapeAttribute (value : String) : String :=
  (((((value.replace "&" "&amp;").replace "\"" "&quot;").replace "<" "&lt;").replace
    ">" "&gt;").replace "\x27" "&apos;")

/-- Two spaces per depth level. -/
def indentOf (depth : Nat) : String := String.join (List.replicate depth "  ")

/-- buildAttributes: render the declared attributes of an element, skipping
implied ones, an empty placeholder for required ones and the escaped
default otherwise. -/
def buildAttributes (elementName : String) (g : DTDGrammar) : String :=
  match g.attLists.lookup elementName with
  | none => ""
  | some attributes =>
    if attributes.length = 0 then ""
    else
      let rendered := attributes.foldl (fun acc p =>
        if p.2.defaultDecl = "#IMPLIED" then acc
        else if p.2.defaultDecl = "#REQUIRED" then acc ++ [p.1 ++ "=\"\""]
        else if p.2.defaultValue.length > 0 then
          acc ++ [p.1 ++ "=\"" ++ escapeAttribute p.2.defaultValue ++ "\""]
        else acc) []
      if rendered.length > 0 then " " ++ String.intercalate " " rendered else ""

/-- inferRootElementName: the first declared element that is not collected
into the referenced children set, else the first declared element. -/
def inferRootElementName (g : DTDGrammar) : Option String :=
  let declaredElements := g.elementDecls
  let referencedChildren := declaredElements.foldl (fun acc elementName =>
    match g.getContentModel elementName with
    | none => acc
    | some contentModel =>
      acc ++ contentModel.children.filter (fun c => g.elementDecls.contains c)) []
  match declaredElements.find? (fun c => !(referencedChildren.contains c)) with
  | some candidate => some candidate
  | none => declaredElements.head?

theorem lookup_some_mem_keys {β : Type} {l : List (String × β)} {k : String}
    {v : β} (h : l.lookup k = some v) : k ∈ l.map Prod.fst := by
  induction l with
  | nil => simp [List.lookup] at h
  | cons hd tl ih =>
    rcases hd with ⟨a, b⟩
    rw [lookup_cons_eq] at h
    by_cases hk : k = a
    · simp [hk]
    · rw [if_neg hk] at h
      exact List.mem_cons_of_mem _ (ih h)

/-- buildElement: cycle guard first, then the content model cases, with
recursion over the declared children of the content model. -/
def buildElement (elementName : String) (g : DTDGrammar)
    (ancestors : List String) (depth : Nat) : String :=
  let indent := indentOf depth
  let attributes := buildAttributes elementName g
  if hanc : elementName ∈ ancestors then
    indent ++ "<" ++ elementName ++ attributes ++ "/>"
  else
    match hcm : g.getContentModel elementName with
    | none => indent ++ "<" ++ elementName ++ attributes ++ "/>"
    | some contentModel =>
      if contentModel.type = .EMPTY then
        indent ++ "<" ++ elementName ++ attributes ++ "/>"
      else if contentModel.type = .PCDATA then
        indent ++ "<" ++ elementName ++ attributes ++ ">text</" ++ elementName ++ ">"
      else
        let nextAncestors := elementName :: ancestors
        let children :=
          contentModel.children.filter (fun n => g.elementDecls.contains n)
        if children.length = 0 then
          if contentModel.type = .ANY ∨ contentModel.type = .MIXED then
            indent ++ "<" ++ elementName ++ attributes ++ ">text</" ++ elementName ++ ">"
          else
            indent ++ "<" ++ elementName ++ attributes ++ "/>"
        else
          let renderedChildren := children.map (fun childName =>
            buildElement childName g nextAncestors (depth + 1))
          indent ++ "<" ++ elementName ++ attributes ++ ">\n" ++
            String.intercalate "\n" renderedChildren ++ "\n" ++
            indent ++ "</" ++ elementName ++ ">"
termination_by ((g.contentModels.map Prod.fst).toFinset \ ancestors.toFinset).card
decreasing_by
  have hmem : elementName ∈ g.contentModels.map Prod.fst := lookup_some_mem_keys hcm
  have hsub : (g.contentModels.map Prod.fst).toFinset \ (elementName :: ancestors).toFinset
      ⊆ (g.contentModels.map Prod.fst).toFinset \ ancestors.toFinset := by
    apply Finset.sdiff_subset_sdiff (Finset.Subset.refl _)
    intro a ha
    simp only [List.toFinset_cons, Finset.mem_insert]
    exact .inr ha
  apply Finset.card_lt_card
  rw [Finset.ssubset_iff_of_subset hsub]
  refine ⟨elementName, ?_, ?_⟩
  · simp only [Finset.mem_sdiff, List.mem_toFinset]
    exact ⟨hmem, hanc⟩
  · simp

/-! ## Claim theorems -/

/-- Claim C1: the two traversals of the diagram generator agree: the
identifier assignment of the emission pass (processNode) equals that of the
classification pass (classifyNodes); both assign the sequential identifiers
in document pre-order from the given counter, root first, children in
original sequence; and the counter consumed by processNode and the
id.current counter of classifyNodes both advance exactly that far. -/
theorem claim_C1 (n : XmlNode) (c : Nat) (p : Option Nat) (r : Bool) :
    processVisits n c = classifyVisits n c
    ∧ (processVisits n c).1 = (preorder n).enumFrom c
    ∧ (processVisits n c).2 = c + (preorder n).length
    ∧ (processNode n p c).2 = (processVisits n c).2
    ∧ (classifyNodes n c r).2.2 = (classifyVisits n c).2 := by
  refine ⟨?_, ?_, ?_, ?_, ?_⟩ <;>
    simp [processVisits_eq, classifyVisits_eq, processNode_counter,
      classifyNodes_counter]

/-- Claim C2, as stated, is false: classifyNodes sends every non-root node
without children to the leaf list, whether or not it has text. In the tree
with root r and one child e with no children and empty text, the empty node
N1 is listed in the leaf class list (and the leaf statement is emitted). -/
theorem claim_C2_counterexample :
    classifyNodes (XmlNode.mk "r" [] "" [XmlNode.mk "e" [] "" []]) 0 true
      = ([], ["N1"], 2)
    ∧ "    class N1 leaf"
        ∈ markupLines (XmlNode.mk "r" [] "" [XmlNode.mk "e" [] "" []]) := by
  have hid : nodeIdStr 1 = "N1" := rfl
  have h1 : classifyNodes (XmlNode.mk "r" [] "" [XmlNode.mk "e" [] "" []]) 0 true
      = ([], ["N1"], 2) := by
    simp [classifyNodes, classifyList, hid]
  refine ⟨h1, ?_⟩
  simp only [markupLines, h1]
  refine List.mem_append.mpr (.inr ?_)
  simp
  rfl

/-- Claim C2 amended: in the markup the root identifier N0 is always
assigned class root; the branch list holds exactly the identifiers of the
non-root nodes with children, and the leaf list exactly those of the
non-root nodes without children, text or not (an empty node is classified
leaf, not left unstyled). -/
theorem claim_C2_amended (root : XmlNode) :
    "    class N0 root" ∈ markupLines root
    ∧ (classifyNodes root 0 true).1
        = (((preorderList root.children).enumFrom 1).filter
            (fun p => 0 < p.2.children.length)).map (fun p => nodeIdStr p.1)
    ∧ (classifyNodes root 0 true).2.1
        = (((preorderList root.children).enumFrom 1).filter
            (fun p => p.2.children.length = 0)).map (fun p => nodeIdStr p.1) := by
  refine ⟨?_, ?_, ?_⟩
  · have h : "    class N0 root" ∈ classDefLines := by simp [classDefLines]
    simp [markupLines, h]
  · rcases root with ⟨t, a, x, cs⟩
    simp [classifyNodes, classifyList_eq cs 1, branchIdsOf, XmlNode.children]
  · rcases root with ⟨t, a, x, cs⟩
    simp [classifyNodes, classifyList_eq cs 1, leafIdsOf, XmlNode.children]

/-- Claim C3: one top-level normalized node is returned as the root itself;
more than one top-level node is wrapped in a synthetic document node with
empty attributes, empty text and exactly those nodes as children. -/
theorem claim_C3 (parsed : List JItem) :
    (∀ n : XmlNode, convertOrderedToTree parsed = [n] → parseXml parsed = n)
    ∧ (1 < (convertOrderedToTree parsed).length →
       parseXml parsed
         = XmlNode.mk "(document)" [] "" (convertOrderedToTree parsed)) := by
  constructor
  · intro n h
    simp [parseXml, h]
  · intro h
    simp only [parseXml]
    rw [if_neg (by omega)]

/-- Witness for C3 at two concrete parse results: a single top-level
element, and two top-level elements. -/
theorem claim_C3_witness :
    parseXml [JItem.mk [("a", JVal.jarr [])]] = XmlNode.mk "a" [] "" []
    ∧ parseXml [JItem.mk [("a", JVal.jarr [])], JItem.mk [("b", JVal.jarr [])]]
        = XmlNode.mk "(document)" [] ""
            [XmlNode.mk "a" [] "" [], XmlNode.mk "b" [] "" []] := by
  have hc2 : convertOrderedToTree
      [JItem.mk [("a", JVal.jarr [])], JItem.mk [("b", JVal.jarr [])]]
      = [XmlNode.mk "a" [] "" [], XmlNode.mk "b" [] "" []] := by
    simp [convertOrderedToTree, convertItem, convertEntries, childFold,
      JItem.entries, List.lookup]
  constructor
  · exact (claim_C3 _).1 _ (by
      simp [convertOrderedToTree, convertItem, convertEntries, childFold,
        JItem.entries, List.lookup])
  · rw [(claim_C3 _).2 (by rw [hc2]; simp), hc2]

/-- Claim C10: zero top-level nodes after skipping declarations is not an
error: parseXml returns the synthetic document wrapper with no children. -/
theorem claim_C10 (parsed : List JItem)
    (h : convertOrderedToTree parsed = []) :
    parseXml parsed = XmlNode.mk "(document)" [] "" [] := by
  simp [parseXml, h]

/-- Witness for C10: an input holding only the XML declaration. -/
theorem claim_C10_witness :
    parseXml [JItem.mk [("?xml", JVal.jarr [])]]
      = XmlNode.mk "(document)" [] "" [] :=
  claim_C10 _ (by
    simp [convertOrderedToTree, convertItem, convertEntries, JItem.entries])

/-- Claim C6: the outline is the concatenation of one newline-terminated
line per node, the lines in document pre-order (children in original
sequence), so the line count is the pre-order node count. -/
theorem claim_C6 (n : XmlNode) (ind : String) (l r : Bool) :
    generateTextTree n ind l r
      = String.join ((annotated n ind l r).map
          (fun p => p.1 ++ displayOf p.2 ++ "\n"))
    ∧ (annotated n ind l r).map Prod.snd = preorder n
    ∧ (annotated n ind l r).length = (preorder n).length := by
  refine ⟨generateTextTree_eq n ind l r, annotated_snd n ind l r, ?_⟩
  rw [← annotated_snd n ind l r]
  simp

/-- The values of the text items of a child sequence, in order. -/
def textItems (cs : List JItem) : List String :=
  cs.filterMap (fun c => (c.entries.lookup "#text").map jsString)

/-- The normalized non-text children of a child sequence, in order. -/
def nonTextNodes (cs : List JItem) : List XmlNode :=
  ((cs.filter (fun c => (c.entries.lookup "#text").isNone)).map
    (fun c => convertOrderedToTree [c])).flatten

theorem childFold_eq (cs : List JItem) (text : String) (acc : List XmlNode) :
    childFold cs text acc
      = ((textItems cs).getLastD text, acc ++ nonTextNodes cs) := by
  induction cs generalizing text acc with
  | nil => simp [childFold, textItems, nonTextNodes]
  | cons child rest ih =>
    cases hl : child.entries.lookup "#text" with
    | some tv =>
      rw [show childFold (child :: rest) text acc
          = childFold rest (jsString tv) acc from by simp [childFold, hl]]
      rw [ih]
      have ht : textItems (child :: rest) = jsString tv :: textItems rest := by
        simp [textItems, hl]
      have hn : nonTextNodes (child :: rest) = nonTextNodes rest := by
        simp [nonTextNodes, hl]
      rw [ht, hn, List.getLastD_cons]
    | none =>
      rw [show childFold (child :: rest) text acc
          = childFold rest text (acc ++ convertOrderedToTree [child]) from by
        simp [childFold, hl]]
      rw [ih]
      have ht : textItems (child :: rest) = textItems rest := by
        simp [textItems, hl]
      have hn : nonTextNodes (child :: rest)
          = convertOrderedToTree [child] ++ nonTextNodes rest := by
        simp [nonTextNodes, hl]
      rw [ht, hn]
      simp

/-- Claim C5: for an element item whose child sequence holds several text
items among element children, the normalized text content is the value of
the last text item (last write wins), and the children are the recursive
normalizations of the non-text children in their original order. -/
theorem claim_C5 (k : String) (cs : List JItem)
    (h1 : ¬(k = "?xml")) (h2 : ¬(k = ":@")) (h3 : ¬(k = "#text"))
    (h4 : 2 ≤ (textItems cs).length) :
    convertItem (JItem.mk [(k, JVal.jarr cs)])
      = [XmlNode.mk k [] ((textItems cs).getLastD "") (nonTextNodes cs)] := by
  have hlook : List.lookup ":@" [(k, JVal.jarr cs)] = none := by
    rw [lookup_cons_eq, if_neg (fun h => h2 h.symm)]
    simp [List.lookup]
  simp [convertItem, convertEntries, JItem.entries, h1, h2, h3, hlook,
    childFold_eq]

/-- Witness for C5: a child sequence with two text runs around an element
child; the second run wins and the element child is kept. -/
theorem claim_C5_witness :
    convertItem (JItem.mk [("p", JVal.jarr
        [JItem.mk [("#text", JVal.jstr "a")],
         JItem.mk [("b", JVal.jarr [])],
         JItem.mk [("#text", JVal.jstr "c")]])])
      = [XmlNode.mk "p" [] "c" [XmlNode.mk "b" [] "" []]] := by
  have h := claim_C5 "p"
      [JItem.mk [("#text", JVal.jstr "a")],
       JItem.mk [("b", JVal.jarr [])],
       JItem.mk [("#text", JVal.jstr "c")]]
      (by decide) (by decide) (by decide)
      (by simp [textItems, JItem.entries, List.lookup, jsString])
  rw [h]
  simp [textItems, nonTextNodes, JItem.entries, List.lookup, jsString,
    convertOrderedToTree, convertItem, convertEntries, childFold]

theorem convertEntries_reserved (item : JItem) (rem : List (String × JVal))
    (h : ∀ p ∈ rem, p.1 = "?xml" ∨ p.1 = ":@" ∨ p.1 = "#text") :
    convertEntries item rem = [] := by
  induction rem with
  | nil => simp [convertEntries]
  | cons e rest ih =>
    have hr := fun p hp => h p (List.mem_cons_of_mem _ hp)
    rcases e with ⟨k, v⟩
    have he := h (k, v) (List.mem_cons_self _ _)
    rcases he with he | he | he <;>
      · replace he : k = _ := he
        subst he
        rcases v with s | cs | fields <;> simp [convertEntries, ih hr]

/-- Claim C9, as stated, is false: the normalizer signals no structural
error. Fed an item with no keys at all, or an item with only an attribute
carrier, convertOrderedToTree silently yields the empty forest, and the
full parse returns the synthetic document node, not an error. -/
theorem claim_C9_counterexample :
    convertOrderedToTree [JItem.mk []] = []
    ∧ convertOrderedToTree [JItem.mk [(":@", JVal.jobj [("@_a", "1")])]] = []
    ∧ parseXml [JItem.mk []] = XmlNode.mk "(document)" [] "" [] := by
  refine ⟨?_, ?_, ?_⟩
  · simp [convertOrderedToTree, convertItem, convertEntries]
  · simp [convertOrderedToTree, convertItem, convertEntries]
  · exact claim_C10 _ (by simp [convertOrderedToTree, convertItem, convertEntries])

/-- Claim C9 amended: the normalizer never signals an error on a
shape-violating item; it degrades silently: an item none of whose keys is
an element key contributes no nodes, and an element key whose value is not
an array yields a childless node with empty text. -/
theorem claim_C9_amended :
    (∀ es : List (String × JVal),
       (∀ p ∈ es, p.1 = "?xml" ∨ p.1 = ":@" ∨ p.1 = "#text") →
       convertItem (.mk es) = [])
    ∧ (∀ (k s : String), ¬(k = "?xml") → ¬(k = ":@") → ¬(k = "#text") →
       convertItem (.mk [(k, JVal.jstr s)]) = [XmlNode.mk k [] "" []]) := by
  constructor
  · intro es h
    simpa [convertItem, JItem.entries] using convertEntries_reserved (.mk es) es h
  · intro k s h1 h2 h3
    have hlook : List.lookup ":@" [(k, JVal.jstr s)] = none := by
      rw [lookup_cons_eq, if_neg (fun h => h2 h.symm)]
      simp [List.lookup]
    simp [convertItem, convertEntries, JItem.entries, h1, h2, h3, hlook]

/-- Witness for the amended C9: a concrete reserved-only item and a
concrete element entry carrying a plain string instead of an array. -/
theorem claim_C9_witness :
    convertItem (JItem.mk [(":@", JVal.jobj [("@_a", "1")]),
        ("#text", JVal.jstr "hi")]) = []
    ∧ convertItem (JItem.mk [("div", JVal.jstr "oops")])
        = [XmlNode.mk "div" [] "" []] :=
  ⟨claim_C9_amended.1 _ (by decide),
   claim_C9_amended.2 "div" "oops" (by decide) (by decide) (by decide)⟩

/-- A two element grammar whose content models reference each other. -/
def gAB : DTDGrammar :=
  ⟨["A", "B"],
   [("A", ⟨ContentModelType.CHILDREN, ["B"]⟩),
    ("B", ⟨ContentModelType.CHILDREN, ["A"]⟩)],
   []⟩

/-- Claim C7: buildElement is total (it is a well defined function of this
development, so it terminates on every grammar, cyclic ones included);
called with an element name already in the ancestor set it returns the
self-closing tag immediately; and on the cyclic grammar with A containing B
and B containing A it terminates with the inner A self-closed. -/
theorem claim_C7 :
    (∀ (elementName : String) (g : DTDGrammar) (ancestors : List String)
       (depth : Nat), elementName ∈ ancestors →
       buildElement elementName g ancestors depth
         = indentOf depth ++ "<" ++ elementName
             ++ buildAttributes elementName g ++ "/>")
    ∧ buildElement "A" gAB [] 0 = "<A>\n  <B>\n    <A/>\n  </B>\n</A>" := by
  constructor
  · intro elementName g ancestors depth h
    rw [buildElement]
    simp [h]
  · rw [buildElement]
    simp [gAB, DTDGrammar.getContentModel, List.lookup, buildAttributes]
    rw [buildElement]
    simp [gAB, DTDGrammar.getContentModel, List.lookup, buildAttributes]
    rw [buildElement]
    simp [gAB, DTDGrammar.getContentModel, List.lookup, buildAttributes]
    rfl

/-- Witness for C7: a concrete call whose element name is already an
ancestor returns the self-closing form at once. -/
theorem claim_C7_witness :
    buildElement "X" (DTDGrammar.mk [] [] []) ["X"] 0
      = indentOf 0 ++ "<" ++ "X"
          ++ buildAttributes "X" (DTDGrammar.mk [] [] []) ++ "/>" :=
  claim_C7.1 "X" ⟨[], [], []⟩ ["X"] 0 (by decide)

/-- Whether the content model of f references e among its children. -/
def refsIn (g : DTDGrammar) (f e : String) : Bool :=
  match g.getContentModel f with
  | some cm => cm.children.contains e
  | none => false

/-- The root choice as claim C8 words it: the first declared element not
referenced in any other declared element content model, else the first
declared element. -/
def claimRootSpec (g : DTDGrammar) : Option String :=
  match g.elementDecls.find?
      (fun e => !(g.elementDecls.any (fun f => (f != e) && refsIn g f e))) with
  | some candidate => some candidate
  | none => g.elementDecls.head?

/-- The root choice the code computes, worded directly: the first declared
element not referenced in any declared element content model, its own
included, else the first declared element. -/
def amendedRootSpec (g : DTDGrammar) : Option String :=
  match g.elementDecls.find?
      (fun e => !(g.elementDecls.any (fun f => refsIn g f e))) with
  | some candidate => some candidate
  | none => g.elementDecls.head?

/-- A grammar whose first element references only itself. -/
def gSelf : DTDGrammar :=
  ⟨["A", "B"],
   [("A", ⟨ContentModelType.CHILDREN, ["A"]⟩),
    ("B", ⟨ContentModelType.EMPTY, []⟩)],
   []⟩

/-- Claim C8, as stated, is false: in the grammar where A references only
itself and B references nothing, A is referenced by no OTHER element, so
the claim picks A; the code also collects self references, skips A, and
returns B. -/
theorem claim_C8_counterexample :
    inferRootElementName gSelf = some "B"
    ∧ claimRootSpec gSelf = some "A" := by
  constructor
  · rfl
  · rfl

theorem find_congr_mem {α : Type} (l : List α) (p q : α → Bool)
    (h : ∀ a ∈ l, p a = q a) : l.find? p = l.find? q := by
  induction l with
  | nil => rfl
  | cons a tl ih =>
    cases hpa : p a with
    | true =>
      rw [List.find?_cons_of_pos _ hpa,
        List.find?_cons_of_pos _ ((h a (List.mem_cons_self _ _)) ▸ hpa)]
    | false =>
      rw [List.find?_cons_of_neg _ (by simp [hpa]),
        List.find?_cons_of_neg _ (by simp [(h a (List.mem_cons_self _ _)) ▸ hpa])]
      exact ih (fun a ha => h a (List.mem_cons_of_mem _ ha))

theorem mem_foldl_refs (g : DTDGrammar) (l : List String)
    (acc : List String) (x : String) :
    x ∈ l.foldl (fun acc elementName =>
        match g.getContentModel elementName with
        | none => acc
        | some contentModel =>
          acc ++ contentModel.children.filter
            (fun c => g.elementDecls.contains c)) acc
      ↔ x ∈ acc ∨ ∃ f ∈ l, ∃ cm, g.getContentModel f = some cm
          ∧ x ∈ cm.children ∧ g.elementDecls.contains x := by
  induction l generalizing acc with
  | nil => simp
  | cons f0 rest ih =>
    simp only [List.foldl_cons]
    cases hcm : g.getContentModel f0 with
    | none =>
      rw [ih]
      constructor
      · rintro (h | h)
        · exact .inl h
        · obtain ⟨f, hf, rest⟩ := h
          exact .inr ⟨f, List.mem_cons_of_mem _ hf, rest⟩
      · rintro (h | ⟨f, hf, cm, hcm2, hx⟩)
        · exact .inl h
        · rcases List.mem_cons.mp hf with hf | hf
          · subst hf
            rw [hcm] at hcm2
            cases hcm2
          · exact .inr ⟨f, hf, cm, hcm2, hx⟩
    | some cm0 =>
      rw [ih]
      simp only [List.mem_append, List.mem_filter]
      constructor
      · rintro ((h | ⟨h1, h2⟩) | h)
        · exact .inl h
        · exact .inr ⟨f0, List.mem_cons_self _ _, cm0, hcm, h1, h2⟩
        · obtain ⟨f, hf, rest⟩ := h
          exact .inr ⟨f, List.mem_cons_of_mem _ hf, rest⟩
      · rintro (h | ⟨f, hf, cm, hcm2, hx1, hx2⟩)
        · exact .inl (.inl h)
        · rcases List.mem_cons.mp hf with hf | hf
          · subst hf
            rw [hcm] at hcm2
            cases hcm2
            exact .inl (.inr ⟨hx1, hx2⟩)
          · exact .inr ⟨f, hf, cm, hcm2, hx1, hx2⟩

/-- Claim C8 amended: inferRootElementName returns the first declared
element that no declared element (its own content model included)
references as a declared child, and falls back to the first declared
element when every element is referenced. -/
theorem claim_C8_amended (g : DTDGrammar) :
    inferRootElementName g = amendedRootSpec g := by
  unfold inferRootElementName amendedRootSpec
  have hpoint : ∀ e ∈ g.elementDecls,
      (!((g.elementDecls.foldl (fun acc elementName =>
          match g.getContentModel elementName with
          | none => acc
          | some contentModel =>
            acc ++ contentModel.children.filter
              (fun c => g.elementDecls.contains c)) []).contains e))
        = (!(g.elementDecls.any (fun f => refsIn g f e))) := by
    intro e he
    congr 1
    apply Bool.coe_iff_coe.mp
    rw [List.elem_iff, mem_foldl_refs, List.any_eq_true]
    constructor
    · rintro (h | ⟨f, hf, cm, hcm, hx, _⟩)
      · cases h
      · exact ⟨f, hf, by simp [refsIn, hcm, List.elem_iff, hx]⟩
    · rintro ⟨f, hf, hr⟩
      unfold refsIn at hr
      cases hcm : g.getContentModel f with
      | none => rw [hcm] at hr; cases hr
      | some cm =>
        rw [hcm] at hr
        simp only [List.elem_iff] at hr
        exact .inr ⟨f, hf, cm, hcm, hr, List.elem_iff.mpr he⟩
  simp only [find_congr_mem _ _ _ hpoint]

theorem groupValue_eq_if (grp : List XmlNode) :
    groupValue grp
      = if grp.length = 1 then xmlNodeToObject grp.head!
        else JsonValue.arr (grp.map xmlNodeToObject) := by
  rcases grp with _ | ⟨c, _ | ⟨c2, rest⟩⟩ <;> simp [groupValue]

theorem underscore_append_ne_text (k : String) : ("_" ++ k) ≠ "#text" := by
  intro h
  have h2 : ("_" ++ k).data = "#text".data := congrArg String.data h
  rw [show ("_" ++ k).data = '_' :: k.data from rfl] at h2
  simp at h2

theorem childGroups_keys (cs : List XmlNode) :
    (childGroups cs).map Prod.fst = firstSeen (cs.map XmlNode.tagName) := by
  rw [childGroups_eq]
  simp only [groupsOf, List.map_map]
  have h : (Prod.fst ∘ fun t => (t, cs.filter (fun c => c.tagName = t)))
      = fun t => t := rfl
  rw [h]
  exact List.map_id _

/-- Claim C4: on a node whose attribute keys (underscore-marked) are
pairwise distinct and collide neither with a child tag name nor with the
text key, toObjectView maps a leaf to its plain text scalar; any other
node maps to an object whose fields are the children grouped by tag name
in first-seen order (a tag occurring once maps to the single recursive
transform, one occurring more often to the array of recursive transforms
in document order), then the attributes under their underscore-marked
names, then the text under the #text key when the node also has text. -/
theorem claim_C4 (n : XmlNode)
    (hA : (n.attributes.map (fun p => "_" ++ p.1)).Nodup)
    (hB : ∀ p ∈ n.attributes, ("_" ++ p.1) ∉ n.children.map XmlNode.tagName)
    (hC : "#text" ∉ n.children.map XmlNode.tagName) :
    (n.children = [] → n.textContent ≠ "" →
      xmlNodeToObject n = .str n.textContent)
    ∧ (¬(n.children = [] ∧ n.textContent ≠ "") →
      xmlNodeToObject n = JsonValue.obj (
        (firstSeen (n.children.map XmlNode.tagName)).map
          (fun t =>
            (t, if (n.children.filter (fun c => c.tagName = t)).length = 1
                then xmlNodeToObject
                  (n.children.filter (fun c => c.tagName = t)).head!
                else JsonValue.arr
                  ((n.children.filter (fun c => c.tagName = t)).map
                    xmlNodeToObject)))
        ++ n.attributes.map (fun p => ("_" ++ p.1, JsonValue.str p.2))
        ++ (if n.textContent ≠ "" then [("#text", JsonValue.str n.textContent)]
            else []))) := by
  rcases n with ⟨t, a, x, cs⟩
  simp only [XmlNode.attributes, XmlNode.children, XmlNode.textContent] at *
  constructor
  · intro hcs hx
    subst hcs
    rw [xmlNodeToObject_mk]
    simp [hx]
  · intro hne
    rw [xmlNodeToObject_mk]
    rw [if_neg (by
      rintro ⟨h1, h2⟩
      exact hne ⟨List.length_eq_zero.mp h1, h2⟩)]
    congr 1
    -- stage one: the grouping fold appends the group fields
    have hkeysnd : ((childGroups cs).map (fun g => g.1)).Nodup := by
      have := childGroups_keys cs
      simp only [show (fun (g : String × List XmlNode) => g.1) = Prod.fst from rfl]
      rw [this]
      exact firstSeen_nodup _
    have hg1 : (childGroups cs).foldl
        (fun obj g => objInsert obj g.1 (groupValue g.2)) []
        = (childGroups cs).map (fun g => (g.1, groupValue g.2)) := by
      have h := foldl_objInsert_fresh (fun g => g.1)
        (fun g => groupValue g.2) (childGroups cs) []
        (fun g _ => by simp [List.lookup]) hkeysnd
      simpa using h
    rw [hg1]
    have hGF : (childGroups cs).map (fun g => (g.1, groupValue g.2))
        = (firstSeen (cs.map XmlNode.tagName)).map
            (fun t => (t,
              if (cs.filter (fun c => c.tagName = t)).length = 1
              then xmlNodeToObject (cs.filter (fun c => c.tagName = t)).head!
              else JsonValue.arr
                ((cs.filter (fun c => c.tagName = t)).map xmlNodeToObject))) := by
      rw [childGroups_eq]
      simp only [groupsOf, List.map_map]
      apply List.map_eq_map_iff.mpr
      intro t0 ht0
      simp [Function.comp, groupValue_eq_if]
    rw [hGF]
    have hfreshA : ∀ p ∈ a,
        ((firstSeen (cs.map XmlNode.tagName)).map
            (fun t => (t,
              if (cs.filter (fun c => c.tagName = t)).length = 1
              then xmlNodeToObject (cs.filter (fun c => c.tagName = t)).head!
              else JsonValue.arr
                ((cs.filter (fun c => c.tagName = t)).map
                  xmlNodeToObject)))).lookup ("_" ++ p.1) = none := by
      intro p hp
      apply lookup_eq_none_of
      intro q hq
      obtain ⟨t0, ht0, hq0⟩ := List.mem_map.mp hq
      intro hk
      rw [← hq0] at hk
      simp only at hk
      subst hk
      exact hB p hp ((mem_firstSeen _ _).mp ht0)
    have hg2 := foldl_objInsert_fresh (fun p => "_" ++ p.1)
      (fun p => JsonValue.str p.2) a _ hfreshA hA
    rw [hg2]
    by_cases hx : x = ""
    · subst hx
      simp
    · have hcs : cs ≠ [] := fun h => hne ⟨h, hx⟩
      rw [if_pos ⟨hx, List.length_pos.mpr hcs⟩, if_pos hx]
      have hfreshT : List.lookup "#text"
          ((firstSeen (cs.map XmlNode.tagName)).map
            (fun t => (t,
              if (cs.filter (fun c => c.tagName = t)).length = 1
              then xmlNodeToObject (cs.filter (fun c => c.tagName = t)).head!
              else JsonValue.arr
                ((cs.filter (fun c => c.tagName = t)).map xmlNodeToObject)))
            ++ a.map (fun p => ("_" ++ p.1, JsonValue.str p.2)))
          = none := by
        apply lookup_eq_none_of
        intro q hq
        rcases List.mem_append.mp hq with hq | hq
        · obtain ⟨t0, ht0, hq0⟩ := List.mem_map.mp hq
          intro hk
          rw [← hq0] at hk
          simp only at hk
          subst hk
          exact hC ((mem_firstSeen _ _).mp ht0)
        · obtain ⟨p, hp, hq0⟩ := List.mem_map.mp hq
          intro hk
          rw [← hq0] at hk
          simp only at hk
          exact underscore_append_ne_text p.1 hk
      unfold objInsert
      rw [hfreshT]
      simp

/-- Witness for C4 at a concrete node: two same-named children become an
array, the distinct child maps alone, the attribute gains the underscore
marker, and the text of the mixed node lands under the text key. -/
theorem claim_C4_witness :
    xmlNodeToObject (XmlNode.mk "r" [("id", "1")] "t"
        [XmlNode.mk "c" [] "hello" [], XmlNode.mk "c" [] "x" [],
         XmlNode.mk "d" [] "" []])
      = JsonValue.obj
          [("c", JsonValue.arr [JsonValue.str "hello", JsonValue.str "x"]),
           ("d", JsonValue.obj []),
           ("_id", JsonValue.str "1"),
           ("#text", JsonValue.str "t")] := by
  have h := (claim_C4 (XmlNode.mk "r" [("id", "1")] "t"
      [XmlNode.mk "c" [] "hello" [], XmlNode.mk "c" [] "x" [],
       XmlNode.mk "d" [] "" []])
    (by decide) (by decide) (by decide)).2
    (by simp [XmlNode.children, XmlNode.textContent])
  rw [h]
  have hleaf1 : xmlNodeToObject (XmlNode.mk "c" [] "hello" []) = .str "hello" := by
    rw [xmlNodeToObject_mk]; simp
  have hleaf2 : xmlNodeToObject (XmlNode.mk "c" [] "x" []) = .str "x" := by
    rw [xmlNodeToObject_mk]; simp
  have hempty : xmlNodeToObject (XmlNode.mk "d" [] "" []) = .obj [] := by
    rw [xmlNodeToObject_mk]; simp [childGroups]
  simp [XmlNode.children, XmlNode.attributes, XmlNode.textContent,
    XmlNode.tagName, firstSeen, hleaf1, hleaf2, hempty]
